import Mathlib

/-!
Verification development for `scripts/generate_thm_card.py`.

The script fetches a TryHackMe profile page, extracts numeric statistics with
layered regular-expression heuristics, synthesizes a decorative trend line,
maps it to sparkline coordinates, computes a progress percentage, and renders
everything through an SVG template.

Modelling conventions:
* Python float expressions are modelled faithfully as IEEE-754 doubles
  carried as significand/exponent pairs over ℤ: every float operation the
  script performs (int-to-float conversion, division, multiplication,
  subtraction from 1) is one correct rounding to 53 significant bits,
  round-to-nearest-ties-to-even (`flFrac` and the pair operations built on
  it).  `int(x)` is truncation toward zero of the value a double denotes
  (`truncPair`) and Python 3 `round` is round half to even on that value
  (`rhePair`); on exact integer fractions these are `truncFrac` and
  `rheFrac`.  This reproduces CPython bit for bit on the trend rescale, the
  sparkline coordinates and the progress percentage.  Subnormals and
  overflow are not modelled; the x87-free double arithmetic of CPython on
  the magnitudes involved never reaches them.
* Python strings are `String` / `List Char`.  Character classes of the `re`
  module (`\d`, `\w`, `\W`, `\s`, case folding under `re.I`) are modelled
  over their ASCII meaning, which coincides with Python's Unicode semantics
  on ASCII subjects; the theorems about the extraction patterns are
  therefore scoped to ASCII documents.  Python additionally extends `\d` to
  all Unicode decimal digits, which the model witnesses with the
  Arabic-Indic digit block U+0660–U+0669 (the other Unicode decimal-digit
  blocks behave the same way and are omitted).
* `re.search` is modelled by a backtracking matcher over the exact shape of
  the nine patterns the script uses: every pattern is a sequence of
  character-class repetitions (a literal character is a `{1,1}` repetition)
  followed by one final capturing class repetition.  Greedy repetitions try
  long matches first, lazy ones short matches first, and the search scans
  start positions from the left, exactly as the `re` engine does.
* File-system and network effects are modelled by explicit data: the fetch
  result is an `Option String`, the render is placeholder substitution over a
  template given as literal/placeholder parts, and `main` produces an
  `RunOutcome` recording the exit code and the written file, if any.
-/

/-- Python `int` applied to the exact value of the fraction `a / b` (for
`b > 0`): truncation toward zero. -/
def truncFrac (a b : ℤ) : ℤ := Int.tdiv a b

/-- Python 3 `round` applied to the exact value of the fraction `a / b` (for
`b > 0`): round half to even.  `Int.ediv`/`Int.emod` are floor division and
its remainder for a positive divisor. -/
def rheFrac (a b : ℤ) : ℤ :=
  let f := Int.ediv a b
  let r := Int.emod a b
  if 2 * r < b then f
  else if b < 2 * r then f + 1
  else if Int.emod f 2 = 0 then f else f + 1

/-- Number of binary digits of a natural number, via an explicit fuel so the
recursion is structural. -/
def bitLenAux : ℕ → ℕ → ℕ
  | 0, _ => 0
  | fuel + 1, n => if n = 0 then 0 else bitLenAux fuel (n / 2) + 1

/-- Number of binary digits: `bitLen n = k` iff `2^(k-1) ≤ n < 2^k` for
positive `n`, and `bitLen 0 = 0`. -/
def bitLen (n : ℕ) : ℕ := bitLenAux n n

/-- Whether `b * 2^e ≤ a` for an integer exponent `e` (i.e. `2^e ≤ a / b`
for `b > 0`), with the power moved to whichever side keeps it natural. -/
def pow2le (b a : ℤ) (e : ℤ) : Bool :=
  if 0 ≤ e then decide (b * 2 ^ e.toNat ≤ a) else decide (b ≤ a * 2 ^ (-e).toNat)

/-- Rounding of the exact fraction `a / b` (with `0 ≤ a`, `0 < b`) to an
IEEE-754 double: round to nearest, ties to even, at a 53-bit significand.
The result is returned as a significand/exponent pair `(m, E)` denoting
`m * 2^E`.  `e` is the binary exponent (`2^e ≤ a/b < 2^(e+1)`), located from
the bit lengths of `a` and `b` and one comparison.  Subnormals and overflow
are not modelled; every quantity the script computes is far inside the
normal range.  This reproduces CPython's float division and multiplication
when applied to the exact fraction an operation denotes. -/
def flFrac (a b : ℤ) : ℤ × ℤ :=
  if a = 0 then (0, 0)
  else
    let e0 : ℤ := (bitLen a.natAbs : ℤ) - (bitLen b.natAbs : ℤ)
    let e := if pow2le b a e0 then e0 else e0 - 1
    let E := e - 52
    let m := if 0 ≤ E then rheFrac a (b * 2 ^ E.toNat) else rheFrac (a * 2 ^ (-E).toNat) b
    (m, E)

/-- The fraction `(numerator, denominator)` denoted by a significand/exponent
pair `(m, E)`: `m * 2^E` as `m·2^max(E,0) / 2^max(-E,0)`. -/
def sigFrac (f : ℤ × ℤ) : ℤ × ℤ :=
  (f.1 * 2 ^ (max f.2 0).toNat, 2 ^ (max (-f.2) 0).toNat)

/-- Python `float(n)` for an integer `n`: the correctly rounded double. -/
def pyFloat (n : ℤ) : ℤ × ℤ := flFrac n 1

/-- IEEE double multiplication: the exact product of the two operand values,
correctly rounded once. -/
def flMulPair (p q : ℤ × ℤ) : ℤ × ℤ :=
  flFrac ((sigFrac p).1 * (sigFrac q).1) ((sigFrac p).2 * (sigFrac q).2)

/-- IEEE double division: the exact quotient of the two operand values,
correctly rounded once. -/
def flDivPair (p q : ℤ × ℤ) : ℤ × ℤ :=
  flFrac ((sigFrac p).1 * (sigFrac q).2) ((sigFrac p).2 * (sigFrac q).1)

/-- IEEE double subtraction `1.0 - p`: the exact difference, correctly
rounded once (`1` is exactly representable). -/
def flOneSub (p : ℤ × ℤ) : ℤ × ℤ :=
  flFrac ((sigFrac p).2 - (sigFrac p).1) (sigFrac p).2

/-- Python 3 `round` applied to the value a double denotes. -/
def rhePair (p : ℤ × ℤ) : ℤ := rheFrac (sigFrac p).1 (sigFrac p).2

/-- Python `int` applied to the value a double denotes. -/
def truncPair (p : ℤ × ℤ) : ℤ := truncFrac (sigFrac p).1 (sigFrac p).2

/-- Tail of the monotone-repair loop of `synthesize_trend`: `prev` is the
value at the previous index, and every later value is raised to at least its
predecessor (`values[i] = values[i-1]` when `values[i] < values[i-1]`). -/
def monofixAux (prev : ℤ) : List ℤ → List ℤ
  | [] => []
  | v :: vs => max prev v :: monofixAux (max prev v) vs

/-- The monotone-repair loop
`for i in range(1, len(values)): if values[i] < values[i-1]: ...`. -/
def monofix : List ℤ → List ℤ
  | [] => []
  | v :: vs => v :: monofixAux v vs

/-- Python `max` over a nonempty list given as head and tail. -/
def pymax (v : ℤ) (vs : List ℤ) : ℤ := vs.foldl max v

/-- Python `max(values)` for a list, 0 for the (unused) empty case. -/
def pymaxList : List ℤ → ℤ
  | [] => 0
  | v :: vs => pymax v vs

/-- The proportional rescale step of `synthesize_trend`:
`if values[-1] != total_rooms and values[-1] != 0:` then every value `v`
becomes `max(0, int(round(v * scale)))` with `scale = total_rooms /
float(values[-1])`.  The float pipeline is modelled operation by operation:
both integers are converted to doubles, their quotient is one correctly
rounded division, `v * scale` converts `v` and performs one correctly
rounded multiplication, and `round` is half-to-even on the resulting
double's value. -/
def trendScale (total_rooms last : ℤ) (values : List ℤ) : List ℤ :=
  if last ≠ total_rooms ∧ last ≠ 0 then
    let scale := flDivPair (pyFloat total_rooms) (pyFloat last)
    values.map (fun v => max 0 (rhePair (flMulPair (pyFloat v) scale)))
  else values

/-- The initial ramp of `synthesize_trend`:
`values = [base + i for i in range(points)]`. -/
def trendRamp (base : ℤ) (p : ℕ) : List ℤ :=
  (List.range p).map (fun i : ℕ => base + (i : ℤ))

/-- `synthesize_trend(total_rooms, points)` from the script: clamp the point
count to at least 2, return all zeros for a non-positive target, otherwise
build the ramp `base, base+1, …` with `base = max(0, total_rooms-(points-1))`,
rescale it so the last value is the target, and repair monotonicity. -/
def synthesize_trend (total_rooms points0 : ℤ) : List ℤ :=
  let points := max 2 points0
  if total_rooms ≤ 0 then List.replicate points.toNat 0
  else
    let base := max 0 (total_rooms - (points - 1))
    let values := trendRamp base points.toNat
    monofix (trendScale total_rooms (values.getLastD 0) values)

/-- `build_sparkline_points(values, width, height)` from the script, with the
polyline kept as a coordinate list instead of the serialized `"x,y …"` string.
`maxv` is `max(values) if max(values) else 1`, each value is normalized to
`v / maxv` (one correctly rounded true division), and index `i` of `n` values
maps to `x = int((i / (n-1)) * width) if n > 1 else 0` and
`y = int((1 - v) * height)`, where each division, subtraction and
multiplication is one correctly rounded double operation and `int` truncates
the final double's value toward zero.
Python's `enumerate` is modelled by zipping with `List.range`. -/
def build_sparkline_points (values : List ℤ) (width height : ℤ) : List (ℤ × ℤ) :=
  match values with
  | [] => []
  | v0 :: vs =>
    let m := pymax v0 vs
    let maxv : ℤ := if m = 0 then 1 else m
    let n : ℕ := vs.length + 1
    ((List.range n).zip (v0 :: vs)).map (fun iv =>
      ((if 1 < n then
          truncPair (flMulPair (flFrac (iv.1 : ℤ) ((n : ℤ) - 1)) (pyFloat width))
        else 0),
       truncPair (flMulPair (flOneSub (flFrac iv.2 maxv)) (pyFloat height))))

/-- The Geometry Mapper exactly as claim C5 words it: the same normalization,
but mapping through `round` instead of the script's `int` truncation. -/
def sparkline_round_spec (values : List ℤ) (width height : ℤ) : List (ℤ × ℤ) :=
  match values with
  | [] => []
  | v0 :: vs =>
    let m := pymax v0 vs
    let maxv : ℤ := if m = 0 then 1 else m
    let n : ℕ := vs.length + 1
    ((List.range n).zip (v0 :: vs)).map (fun iv =>
      ((if 1 < n then round (((iv.1 : ℚ) / ((n : ℚ) - 1)) * (width : ℚ)) else 0),
       round ((1 - (iv.2 : ℚ) / (maxv : ℚ)) * (height : ℚ))))

/-- The character class of Python's `\d` in `re.sub(r'[^\d]', '', s)`:
any Unicode decimal digit.  The model covers the ASCII digits and the
Arabic-Indic block U+0660–U+0669; the remaining Unicode decimal-digit blocks
behave identically and are omitted. -/
def pyIsDigit (c : Char) : Bool :=
  c.isDigit || (decide (0x660 ≤ c.toNat) && decide (c.toNat ≤ 0x669))

/-- Decimal value of a digit accepted by `pyIsDigit`. -/
def pyDigitVal (c : Char) : ℕ :=
  if c.isDigit then c.toNat - '0'.toNat else c.toNat - 0x660

/-- Base-10 value of a digit string, as Python's `int` computes it. -/
def parseDigits (l : List Char) : ℕ :=
  l.foldl (fun a c => 10 * a + pyDigitVal c) 0

/-- `safe_int(s)` from the script: `None` gives 0, otherwise every character
that is not a decimal digit is deleted and the remainder is parsed in base 10,
with the empty remainder giving 0.  Total by construction: the "must never
raise" part of the contract is the totality of this function. -/
def safe_int (s : Option String) : ℤ :=
  match s with
  | none => 0
  | some s =>
    let cl := s.data.filter pyIsDigit
    if cl = [] then 0 else (parseDigits cl : ℤ)

/-- One element of a regular-expression pattern: a repetition of a character
class, `cls{lo,hi}` (`hi = none` means unbounded), greedy or lazy. -/
structure Elem where
  cls : Char → Bool
  lo : ℕ
  hi : Option ℕ
  greedy : Bool

/-- A pattern of the shape every regex in the script has: a sequence of
class repetitions followed by one final capturing class repetition
`(capCls){capLo,capHi}`. -/
structure Pat where
  elems : List Elem
  capCls : Char → Bool
  capLo : ℕ
  capHi : Option ℕ

/-- The remainders a repetition can leave, in backtracking priority order:
a class repetition can consume any `k` with `lo ≤ k ≤ min(run, hi)` where
`run` is the longest prefix of `s` inside the class; greedy tries the largest
`k` first, lazy the smallest. -/
def repCandidates (cls : Char → Bool) (lo : ℕ) (hi : Option ℕ) (greedy : Bool)
    (s : List Char) : List (List Char) :=
  let run := (s.takeWhile cls).length
  let maxk := match hi with
    | some h => min run h
    | none => run
  if lo ≤ maxk then
    let ks := List.range' lo (maxk - lo + 1)
    (if greedy then ks.reverse else ks).map (fun k => s.drop k)
  else []

/-- Match a sequence of repetitions against a prefix of `s`, trying the
remainders in backtracking order and handing each to the continuation. -/
def matchSeq : List Elem → List Char → (List Char → Option (List Char)) →
    Option (List Char)
  | [], s, k => k s
  | e :: es, s, k =>
    (repCandidates e.cls e.lo e.hi e.greedy s).findSome? fun s2 => matchSeq es s2 k

/-- The text the final capture group takes at a given position: the longest
run inside its class, cut to the upper repetition bound.  Nothing follows the
group in any of the script's patterns, so greediness takes the full run. -/
def capTake (cls : Char → Bool) (hi : Option ℕ) (s : List Char) : List Char :=
  match hi with
  | some h => (s.takeWhile cls).take h
  | none => s.takeWhile cls

/-- Try to match a pattern starting exactly at the head of `s`, returning the
text of the capture group on success. -/
def matchAt (p : Pat) (s : List Char) : Option (List Char) :=
  matchSeq p.elems s fun rest =>
    let cap := capTake p.capCls p.capHi rest
    if p.capLo ≤ cap.length then some cap else none

/-- `re.search`: scan start positions left to right and return the first
position where the pattern matches. -/
def reSearch (p : Pat) : List Char → Option (List Char)
  | [] => matchAt p []
  | c :: t =>
    match matchAt p (c :: t) with
    | some g => some g
    | none => reSearch p t

/-- Case-insensitive literal character (`re.I`, ASCII case folding). -/
def litCI (a : Char) (c : Char) : Bool := c.toLower == a.toLower

/-- Case-sensitive literal character. -/
def litEx (a : Char) (c : Char) : Bool := c == a

/-- The class `[0-9]`; also `\d` restricted to ASCII subjects (Python's `\d`
matches every Unicode decimal digit, which coincides with `[0-9]` on ASCII
characters — the extraction theorems are scoped to ASCII documents). -/
def digitCh (c : Char) : Bool := c.isDigit

/-- The class `[0-9,]`. -/
def digitComma (c : Char) : Bool := c.isDigit || c == ','

/-- The class `[^0-9]`. -/
def nonDigitCh (c : Char) : Bool := !c.isDigit

/-- `.` under `re.S`: any character. -/
def anyCh (_ : Char) : Bool := true

/-- The class `\w` restricted to ASCII subjects: letters, digits and
underscore (Python's Unicode `\w` matches exactly these among the ASCII
characters). -/
def wordCh (c : Char) : Bool := c.isAlphanum || c == '_'

/-- The class `\W` restricted to ASCII subjects: the complement of `\w`,
which on ASCII characters agrees with Python's Unicode `\W`. -/
def nonWordCh (c : Char) : Bool := !wordCh c

/-- The class `\s` restricted to ASCII subjects: space, tab, newline,
carriage return, vertical tab, form feed, and the separator controls
U+001C–U+001F (which Python's Unicode `\s` also matches). -/
def spaceCh (c : Char) : Bool :=
  c == ' ' || c == '\t' || c == '\n' || c == '\r' || c == '\x0b' || c == '\x0c' ||
  c == '\x1c' || c == '\x1d' || c == '\x1e' || c == '\x1f'

/-- The class `[:\-\n\r ]` of the badge fallback pattern. -/
def sepCh (c : Char) : Bool :=
  c == ':' || c == '-' || c == '\n' || c == '\r' || c == ' '

/-- The class `[A-Za-z0-9\-_]` of the username fallback pattern. -/
def slugCh (c : Char) : Bool := c.isAlphanum || c == '-' || c == '_'

/-- A case-insensitive literal character as a `{1,1}` repetition. -/
def litE (a : Char) : Elem := { cls := litCI a, lo := 1, hi := some 1, greedy := true }

/-- A case-insensitive literal word, character by character. -/
def litsCI (s : String) : List Elem := s.data.map litE

/-- A greedy class repetition. -/
def repE (cls : Char → Bool) (lo : ℕ) (hi : Option ℕ) : Elem :=
  { cls := cls, lo := lo, hi := hi, greedy := true }

/-- A lazy unbounded class repetition (`*?`). -/
def lazyE (cls : Char → Bool) : Elem :=
  { cls := cls, lo := 0, hi := none, greedy := false }

/-- `r'Rank[^0-9]{0,40}([0-9,]{1,9})'` with `re.I`. -/
def rank1 : Pat :=
  { elems := litsCI "Rank" ++ [repE nonDigitCh 0 (some 40)],
    capCls := digitComma, capLo := 1, capHi := some 9 }

/-- `r'Rank.*?(\d{1,7})'` with `re.I | re.S`. -/
def rank2 : Pat :=
  { elems := litsCI "Rank" ++ [lazyE anyCh],
    capCls := digitCh, capLo := 1, capHi := some 7 }

/-- `r'Badges[^0-9]{0,40}([0-9]{1,4})'` with `re.I`. -/
def badges1 : Pat :=
  { elems := litsCI "Badges" ++ [repE nonDigitCh 0 (some 40)],
    capCls := digitCh, capLo := 1, capHi := some 4 }

/-- `r'badge[s]?\W*[:\-\n\r ]+\s*([0-9]{1,4})'` with `re.I`. -/
def badges2 : Pat :=
  { elems := litsCI "badge" ++
      [repE (litCI 's') 0 (some 1), repE nonWordCh 0 none,
       repE sepCh 1 none, repE spaceCh 0 none],
    capCls := digitCh, capLo := 1, capHi := some 4 }

/-- `r'Completed\s*rooms[^0-9]{0,50}([0-9,]{1,6})'` with `re.I`. -/
def rooms1 : Pat :=
  { elems := litsCI "Completed" ++ [repE spaceCh 0 none] ++ litsCI "rooms" ++
      [repE nonDigitCh 0 (some 50)],
    capCls := digitComma, capLo := 1, capHi := some 6 }

/-- `r'Completed[^0-9]{0,40}([0-9,]{1,6})'` with `re.I`. -/
def rooms2 : Pat :=
  { elems := litsCI "Completed" ++ [repE nonDigitCh 0 (some 40)],
    capCls := digitComma, capLo := 1, capHi := some 6 }

/-- `r'Completed\s*:\s*([0-9,]{1,6})'` with `re.I`. -/
def rooms3 : Pat :=
  { elems := litsCI "Completed" ++
      [repE spaceCh 0 none, repE (litEx ':') 1 (some 1), repE spaceCh 0 none],
    capCls := digitComma, capLo := 1, capHi := some 6 }

/-- `r'Streak[^0-9]{0,30}([0-9]{1,4})'` with `re.I`. -/
def streak1 : Pat :=
  { elems := litsCI "Streak" ++ [repE nonDigitCh 0 (some 30)],
    capCls := digitCh, capLo := 1, capHi := some 4 }

/-- `r'/p/([A-Za-z0-9\-_]+)'`, case sensitive. -/
def userPat : Pat :=
  { elems := [repE (litEx '/') 1 (some 1), repE (litEx 'p') 1 (some 1),
      repE (litEx '/') 1 (some 1)],
    capCls := slugCh, capLo := 1, capHi := none }

/-- The record `extract_stats` fills in. -/
structure ProfileStats where
  username : String
  rank : ℤ
  badges : ℤ
  rooms : ℤ
  streak : ℤ
deriving DecidableEq

/-- `extract_stats(html, username)` from the script: start from the defaults
`{username or "", 0, 0, 0, 0}`, return them at once for an empty document,
otherwise fill each numeric field from its ordered pattern fallbacks (a match
always captures at least one character, so the `if m and m.group(1)` guard is
just the match test), fall back to the `/p/<slug>` pattern for an empty
username, and finally re-coerce the numeric fields (`int(x) if x else 0`). -/
def extract_stats (html : List Char) (username : String) : ProfileStats :=
  let uname0 : String := if username = "" then "" else username
  if html = [] then
    { username := uname0, rank := 0, badges := 0, rooms := 0, streak := 0 }
  else
    let rank : ℤ :=
      match reSearch rank1 html with
      | some g => safe_int (some (String.mk g))
      | none =>
        match reSearch rank2 html with
        | some g => safe_int (some (String.mk g))
        | none => 0
    let badges : ℤ :=
      match reSearch badges1 html with
      | some g => safe_int (some (String.mk g))
      | none =>
        match reSearch badges2 html with
        | some g => safe_int (some (String.mk g))
        | none => 0
    let rooms : ℤ :=
      match reSearch rooms1 html with
      | some g => safe_int (some (String.mk g))
      | none =>
        match reSearch rooms2 html with
        | some g => safe_int (some (String.mk g))
        | none =>
          match reSearch rooms3 html with
          | some g => safe_int (some (String.mk g))
          | none => 0
    let streak : ℤ :=
      match reSearch streak1 html with
      | some g => safe_int (some (String.mk g))
      | none => 0
    let uname : String :=
      if uname0 = "" then
        match reSearch userPat html with
        | some g => String.mk g
        | none => uname0
      else uname0
    { username := uname,
      rank := if rank = 0 then 0 else rank,
      badges := if badges = 0 then 0 else badges,
      rooms := if rooms = 0 then 0 else rooms,
      streak := if streak = 0 then 0 else streak }

/-- Little-endian 3-digit grouping used to model the `","` format spec. -/
def chunk3 : List Char → List (List Char)
  | [] => []
  | [a] => [[a]]
  | [a, b] => [[a, b]]
  | a :: b :: c :: rest => [a, b, c] :: chunk3 rest

/-- Python `f"{n:,}"` for a non-negative integer: decimal digits grouped in
threes from the right, separated by commas. -/
def commaGroup (n : ℕ) : String :=
  String.mk (List.intercalate [','] (((chunk3 (Nat.toDigits 10 n).reverse).map
    List.reverse).reverse))

/-- The rank display string: `f"{rank:,}" if rank else "—"`. -/
def rank_display (rank : ℤ) : String :=
  if rank = 0 then "—" else commaGroup rank.toNat

/-- `progress_cap = max(10, rooms, 100)` from `main`. -/
def progress_cap (rooms : ℤ) : ℤ := max 10 (max rooms 100)

/-- `progress_pct = int(min(100, (rooms / progress_cap) * 100))` from `main`,
with the two float operations modelled by IEEE-754 double rounding:
`f1 = fl(rooms / cap)`, `f2 = fl(f1 * 100)`, then `min` compares the int
`100` with the float exactly and `int` truncates toward zero.  Every float
is carried as an exact significand/exponent pair. -/
def progress_pct (rooms : ℤ) : ℤ :=
  let cap := progress_cap rooms
  let f1 := flFrac rooms cap
  let p2 := sigFrac f1
  let f2 := flFrac (100 * p2.1) p2.2
  let p3 := sigFrac f2
  if 100 * p3.2 ≤ p3.1 then 100 else truncFrac p3.1 p3.2

/-- One part of the SVG template: literal text or a named placeholder.
Modelled from the spec: the Jinja2 template file is not part of the sources;
§4.5 specifies the renderer as substituting every named placeholder in the
template text. -/
inductive TmplPart where
  | lit : String → TmplPart
  | hole : String → TmplPart

/-- Render a template against a context: literal parts are copied, and each
placeholder is replaced by its value in the context. -/
def render : List TmplPart → (String → String) → String
  | [], _ => ""
  | TmplPart.lit s :: rest, c => s ++ render rest c
  | TmplPart.hole k :: rest, c => c k ++ render rest c

/-- The placeholder names a template consumes, in order. -/
def holes : List TmplPart → List String
  | [] => []
  | TmplPart.lit _ :: rest => holes rest
  | TmplPart.hole k :: rest => k :: holes rest

/-- Serialization of the sparkline points: `" ".join(f"{x},{y}")`. -/
def spark_points_str (pts : List (ℤ × ℤ)) : String :=
  String.intercalate " " (pts.map fun p => toString p.1 ++ "," ++ toString p.2)

/-- The template context `main` builds: the extracted record, its display
strings, the synthesized trend geometry, the timestamp and layout fields.
Unknown keys answer the empty string. -/
def buildContext (html : List Char) (username : String)
    (points cardW cardH : ℤ) (now : String) : String → String :=
  let stats := extract_stats html username
  let uname := if stats.username = "" then username else stats.username
  let trend := synthesize_trend stats.rooms points
  let spark := build_sparkline_points trend 360 44
  fun k =>
    if k = "username" then uname
    else if k = "rank_display" then rank_display stats.rank
    else if k = "badges_display" then toString stats.badges
    else if k = "rooms_display" then toString stats.rooms
    else if k = "streak_display" then toString stats.streak
    else if k = "total_rooms" then toString stats.rooms
    else if k = "spark_points" then spark_points_str spark
    else if k = "generated_at" then now
    else if k = "card_w" then toString cardW
    else if k = "card_h" then toString cardH
    else if k = "progress_pct" then toString (progress_pct stats.rooms)
    else ""

/-- The bytes a successful run writes: the template rendered against the
context built from the fetched document, the inputs, and the timestamp. -/
def runOutput (tmpl : List TmplPart) (html : List Char) (username : String)
    (points cardW cardH : ℤ) (now : String) : String :=
  render tmpl (buildContext html username points cardW cardH now)

/-- Observable outcome of one `main` invocation: the exit code and the file
content written to the output path, if any. -/
structure RunOutcome where
  exitCode : ℕ
  written : Option String
deriving DecidableEq

/-- Control-flow skeleton of `main`, with the effects made explicit: a missing
template exits 1 before anything is written; a failed fetch degrades to the
empty document; a rendering failure exits 1 without writing; otherwise the
rendered text is written and the exit code is 0. -/
def main_model (templateExists : Bool) (tmpl : List TmplPart)
    (fetched : Option String) (username : String) (points cardW cardH : ℤ)
    (renderOk : Bool) (now : String) : RunOutcome :=
  if templateExists = false then { exitCode := 1, written := none }
  else
    let html := (fetched.getD "").data
    if renderOk = false then { exitCode := 1, written := none }
    else { exitCode := 0,
           written := some (runOutput tmpl html username points cardW cardH now) }

/-! ## Digit parsing: helper lemmas and claim C2 -/

theorem pyIsDigit_ascii {c : Char} (h : c.toNat < 128) : pyIsDigit c = c.isDigit := by
  have h1 : ¬ (0x660 ≤ c.toNat) := by omega
  simp [pyIsDigit, h1]

theorem pyDigitVal_ascii {c : Char} (h : c.isDigit = true) :
    pyDigitVal c = c.toNat - 48 := by
  simp [pyDigitVal, h]

theorem parseDigits_eq_ofDigits (l : List Char) :
    parseDigits l = Nat.ofDigits 10 ((l.map pyDigitVal).reverse) := by
  induction l using List.reverseRecOn with
  | nil => simp [parseDigits]
  | append_singleton xs c ih =>
    have hfold : parseDigits (xs ++ [c]) = 10 * parseDigits xs + pyDigitVal c := by
      simp [parseDigits, List.foldl_append]
    rw [hfold, ih]
    simp [List.reverse_append, Nat.ofDigits_cons]
    ring

/-- C2 (counterexample): the claim asserts that `safe_int` returns 0 for any
string containing no ASCII digit, but Python's `\d` accepts every Unicode
decimal digit: on the Arabic-Indic digit five (U+0665), which is not an ASCII
digit, `safe_int` returns 5, not 0. -/
theorem safe_int_counterexample :
    (∀ c ∈ "٥".data, c.isDigit = false) ∧ safe_int (some "٥") = 5 := by
  exact ⟨by decide, by decide⟩

/-- C2 (amended): restricted to `None`, the empty string, and strings of
ASCII characters, `safe_int` never fails (it is total), returns 0 when the
input is `None`, empty, or has no ASCII digit, and otherwise returns the
base-10 integer whose digits are exactly the ASCII digits of the input in
order (every non-digit character deleted), e.g. `"12,345 pts"` gives 12345. -/
theorem safe_int_spec :
    safe_int none = 0 ∧ safe_int (some "") = 0 ∧
    ∀ s : String, (∀ c ∈ s.data, c.toNat < 128) →
      ((∀ c ∈ s.data, c.isDigit = false) → safe_int (some s) = 0) ∧
      safe_int (some s) =
        ((Nat.ofDigits 10
          (((s.data.filter Char.isDigit).map (fun c => c.toNat - 48)).reverse) : ℕ) : ℤ) := by
  refine ⟨rfl, rfl, fun s hs => ?_⟩
  have hfilter : s.data.filter pyIsDigit = s.data.filter Char.isDigit :=
    List.filter_congr (fun c hc => pyIsDigit_ascii (hs c hc))
  constructor
  · intro hnone
    have hnil : s.data.filter Char.isDigit = [] := by
      simp only [List.filter_eq_nil_iff]
      intro c hc
      simp [hnone c hc]
    simp [safe_int, hfilter, hnil, Nat.ofDigits_nil]
  · by_cases hnil : s.data.filter Char.isDigit = []
    · simp [safe_int, hfilter, hnil, Nat.ofDigits_nil]
    · simp only [safe_int, hfilter, if_neg hnil]
      rw [parseDigits_eq_ofDigits]
      have hmap : (s.data.filter Char.isDigit).map pyDigitVal =
          (s.data.filter Char.isDigit).map (fun c => c.toNat - 48) := by
        refine List.map_congr_left (fun c hc => ?_)
        exact pyDigitVal_ascii (List.of_mem_filter hc)
      rw [hmap]

/-- C2 (witness): the amended theorem applied to the spec's own example. -/
theorem safe_int_spec_witness :
    (∀ c ∈ "12,345 pts".data, c.toNat < 128) ∧ safe_int (some "12,345 pts") = 12345 := by
  refine ⟨by decide, ?_⟩
  rw [(safe_int_spec.2.2 "12,345 pts" (by decide)).2]
  decide

/-! ## Extraction: claims C3, C9, C7 -/

/-- C3: when none of the nine extraction patterns matches the document — in
particular for the empty document — `extract_stats` returns the default
record: all four numeric fields 0 and the username equal to the input
identifier.  The document is required to be ASCII so that the model's nine
pattern searches coincide exactly with Python's `re.search` (every class the
patterns use — `\d`, `\w`, `\W`, `\s`, `[0-9]`-style explicit classes and
`re.I` case folding — agrees with its Unicode semantics on ASCII
characters); the nine no-match hypotheses then state precisely the claim's
premise that no extraction pattern matches. -/
theorem extract_stats_default (html : List Char) (u : String)
    (hascii : ∀ c ∈ html, c.toNat < 128)
    (h1 : reSearch rank1 html = none) (h2 : reSearch rank2 html = none)
    (h3 : reSearch badges1 html = none) (h4 : reSearch badges2 html = none)
    (h5 : reSearch rooms1 html = none) (h6 : reSearch rooms2 html = none)
    (h7 : reSearch rooms3 html = none) (h8 : reSearch streak1 html = none)
    (h9 : reSearch userPat html = none) :
    extract_stats html u =
      { username := u, rank := 0, badges := 0, rooms := 0, streak := 0 } := by
  by_cases hh : html = []
  · by_cases hu : u = "" <;> simp [extract_stats, hh, hu]
  · by_cases hu : u = "" <;>
      simp [extract_stats, hh, hu, h1, h2, h3, h4, h5, h6, h7, h8, h9]

/-- C3 (witness): the no-match theorem applied to a concrete marker-free
ASCII document and identifier. -/
theorem extract_stats_default_witness :
    extract_stats "hello".data "alice" =
      { username := "alice", rank := 0, badges := 0, rooms := 0, streak := 0 } :=
  extract_stats_default "hello".data "alice" (by decide) (by decide) (by decide)
    (by decide) (by decide) (by decide) (by decide) (by decide) (by decide)
    (by decide)

/-- C9 (counterexample): the claim's priority order would extract `bob` from
the URL-path marker `/p/bob` (the pattern does match, first conjunct) for any
input username, but the code keeps the non-empty input username `alice`. -/
theorem username_priority_counterexample :
    reSearch userPat "/p/bob".data = some "bob".data ∧
    (extract_stats "/p/bob".data "alice").username = "alice" := by
  exact ⟨by decide, by decide⟩

/-- C9 (amended): the input username takes priority whenever it is non-empty;
only for an empty input username does the extractor consult the document, and
then only via the URL-path pattern `/p/<identifier>` (there is no
profile-header-marker extraction in the code); an empty document leaves the
username empty. -/
theorem username_priority (html : List Char) (u : String) :
    (u ≠ "" → (extract_stats html u).username = u) ∧
    (u = "" → html = [] → (extract_stats html u).username = "") ∧
    (u = "" → html ≠ [] →
      (extract_stats html u).username =
        (match reSearch userPat html with
         | some g => String.mk g
         | none => "")) := by
  refine ⟨fun hu => ?_, fun hu hh => ?_, fun hu hh => ?_⟩
  · by_cases hh : html = [] <;> simp [extract_stats, hh, hu]
  · subst hu
    simp [extract_stats, hh]
  · subst hu
    simp only [extract_stats, if_neg hh]
    cases hsearch : reSearch userPat html <;> simp [hsearch]

/-- C9 (witness): the amended priority applied to a document whose URL-path
marker supplies the username for an empty input. -/
theorem username_priority_witness :
    (extract_stats "/p/bob".data "").username = "bob" := by
  have h := (username_priority "/p/bob".data "").2.2 rfl (by decide)
  rw [h]
  decide

/-- C7 (counterexample): the claim quantifies over every document containing
the substrings `"Completed rooms: 42"` and `"Rank #1,234"`; this document
contains both (the two decompositions), yet leftmost-first search finds the
earlier `"Completed rooms: 7"` marker and extracts `rooms = 7`, not 42. -/
theorem extract_stats_substring_counterexample :
    "Completed rooms: 7 Completed rooms: 42 Rank #1,234".data =
      "Completed rooms: 7 ".data ++ "Completed rooms: 42".data ++ " Rank #1,234".data ∧
    "Completed rooms: 7 Completed rooms: 42 Rank #1,234".data =
      "Completed rooms: 7 Completed rooms: 42 ".data ++ "Rank #1,234".data ∧
    (extract_stats "Completed rooms: 7 Completed rooms: 42 Rank #1,234".data
      "alice").rooms = 7 := by
  exact ⟨by decide, by decide, by decide⟩

/-- C7 (amended): for the end-to-end scenario document, in which the two
markers are the first matches of their patterns, extraction yields
`rooms = 42` and `rank = 1234`, and the rank display string is `"1,234"`. -/
theorem extract_stats_scenario :
    (extract_stats "Completed rooms: 42 Rank #1,234".data "alice").rooms = 42 ∧
    (extract_stats "Completed rooms: 42 Rank #1,234".data "alice").rank = 1234 ∧
    rank_display
      (extract_stats "Completed rooms: 42 Rank #1,234".data "alice").rank = "1,234" := by
  exact ⟨by decide, by decide, by decide⟩

/-! ## Renderer and main: claims C10 and C8 -/

/-- C10: when the template location does not exist, `main` reports the error
with exit code 1 (nonzero) and writes no output file, regardless of every
other input. -/
theorem main_missing_template (tmpl : List TmplPart) (fetched : Option String)
    (username : String) (points cardW cardH : ℤ) (renderOk : Bool) (now : String) :
    (main_model false tmpl fetched username points cardW cardH renderOk now).exitCode ≠ 0 ∧
    (main_model false tmpl fetched username points cardW cardH renderOk now).written = none := by
  simp [main_model]

theorem render_agrees_on_holes (c1 c2 : String → String) :
    ∀ t : List TmplPart, (∀ k ∈ holes t, c1 k = c2 k) → render t c1 = render t c2
  | [], _ => rfl
  | TmplPart.lit s :: rest, h => by
    simp only [render]
    rw [render_agrees_on_holes c1 c2 rest (fun k hk => h k (by simpa [holes] using hk))]
  | TmplPart.hole k :: rest, h => by
    simp only [render]
    rw [h k (by simp [holes]),
      render_agrees_on_holes c1 c2 rest (fun k2 hk => h k2 (by simp [holes, hk]))]

/-- C8 (counterexample): the rendered output embeds the generation timestamp,
so two runs with identical remote content (here: a failed fetch, empty
document) and identical command-line inputs but different wall-clock times
write different files whenever the template consumes `generated_at`. -/
theorem run_not_time_invariant :
    runOutput [TmplPart.hole "generated_at"] "".data "alice" 12 780 330
        "2025-01-01 00:00 UTC" ≠
      runOutput [TmplPart.hole "generated_at"] "".data "alice" 12 780 330
        "2025-01-01 00:01 UTC" := by
  decide

/-- C8 (amended): a run's output is a function of the template and of the
values of the placeholders the template consumes; two runs with the same
remote content and inputs whose contexts agree on every consumed placeholder
(in particular runs with the same generation timestamp, since `generated_at`
is the only context entry not determined by document and inputs) write
identical files. -/
theorem runOutput_deterministic (tmpl : List TmplPart) (html : List Char)
    (u : String) (points cardW cardH : ℤ) (now1 now2 : String)
    (h : ∀ k ∈ holes tmpl,
      buildContext html u points cardW cardH now1 k =
        buildContext html u points cardW cardH now2 k) :
    runOutput tmpl html u points cardW cardH now1 =
      runOutput tmpl html u points cardW cardH now2 :=
  render_agrees_on_holes _ _ tmpl h

/-- C8 (witness): a template that does not consume `generated_at` produces
identical output across runs at different times. -/
theorem runOutput_deterministic_witness :
    (∀ k ∈ holes [TmplPart.hole "username"],
      buildContext "".data "alice" 12 780 330 "2025-01-01 00:00 UTC" k =
        buildContext "".data "alice" 12 780 330 "2025-01-01 00:01 UTC" k) ∧
    runOutput [TmplPart.hole "username"] "".data "alice" 12 780 330
        "2025-01-01 00:00 UTC" =
      runOutput [TmplPart.hole "username"] "".data "alice" 12 780 330
        "2025-01-01 00:01 UTC" :=
  ⟨by decide, runOutput_deterministic _ _ _ _ _ _ _ _ (by decide)⟩

/-! ## Progress percentage: claim C4 -/

theorem rheFrac_nonneg {a b : ℤ} (ha : 0 ≤ a) (hb : 0 < b) : 0 ≤ rheFrac a b := by
  have hf : 0 ≤ Int.ediv a b := Int.ediv_nonneg ha hb.le
  simp only [rheFrac]
  split
  · exact hf
  · split
    · omega
    · split <;> omega

theorem flFrac_fst_nonneg {a b : ℤ} (ha : 0 ≤ a) (hb : 0 < b) :
    0 ≤ (flFrac a b).1 := by
  simp only [flFrac]
  split
  · simp
  · split <;>
    · dsimp only
      split
      · exact rheFrac_nonneg ha (mul_pos hb (by positivity))
      · exact rheFrac_nonneg (mul_nonneg ha (by positivity)) hb

/-- `x / x` is exactly `1.0` in IEEE arithmetic: the double of `r / r` is the
pair `(2^52, -52)`. -/
theorem flFrac_self {r : ℤ} (hr : 0 < r) : flFrac r r = (4503599627370496, -52) := by
  have hr0 : r ≠ 0 := hr.ne'
  have hpow : pow2le r r 0 = true := by
    simp [pow2le]
  have hdiv : Int.ediv (r * 4503599627370496) r = 4503599627370496 :=
    Int.mul_ediv_cancel_left _ hr0
  have hmod : Int.emod (r * 4503599627370496) r = 0 := Int.mul_emod_right _ _
  simp only [flFrac, if_neg hr0, sub_self, hpow, if_true]
  norm_num
  rw [show ((2 : ℤ) ^ Int.toNat 52) = 4503599627370496 by decide]
  simp [rheFrac, hdiv, hmod, hr]

/-- C4 (counterexample): at `rooms = 29` the program computes 28 — CPython
evaluates `(29/100)*100` to `28.999999999999996` and `int` truncates — while
the claim's formula `⌊min(100, 29/100·100)⌋` equals 29. -/
theorem progress_pct_counterexample :
    progress_pct 29 = 28 ∧
    ⌊min (100 : ℚ) ((29 : ℚ) / ((progress_cap 29 : ℤ) : ℚ) * 100)⌋ = 29 := by
  constructor
  · decide
  · have hcap : progress_cap 29 = 100 := by decide
    rw [hcap]
    norm_num

/-- C4 (amended): the percentage is the claimed expression with
`rooms / cap * 100` evaluated in IEEE double precision, whose truncation can
fall one below the exact floor value (`rooms = 29` gives 28); it still always
lies in `[0, 100]`, equals 0 when `rooms = 0`, and equals 100 — in particular
never exceeds 100 — whenever `rooms ≥ 100`. -/
theorem progress_pct_bounds (rooms : ℤ) (h : 0 ≤ rooms) :
    0 ≤ progress_pct rooms ∧ progress_pct rooms ≤ 100 := by
  have hcap0 : (0 : ℤ) < progress_cap rooms := by
    simp only [progress_cap]
    omega
  set f1 := flFrac rooms (progress_cap rooms) with hf1
  set p2 := sigFrac f1 with hp2
  set f2 := flFrac (100 * p2.1) p2.2 with hf2
  set p3 := sigFrac f2 with hp3
  have hm1 : 0 ≤ f1.1 := flFrac_fst_nonneg h hcap0
  have h21 : 0 ≤ p2.1 := by
    rw [hp2, sigFrac]
    exact mul_nonneg hm1 (by positivity)
  have h22 : 0 < p2.2 := by
    rw [hp2, sigFrac]
    positivity
  have hm2 : 0 ≤ f2.1 := by
    rw [hf2]
    exact flFrac_fst_nonneg (mul_nonneg (by norm_num) h21) h22
  have h31 : 0 ≤ p3.1 := by
    rw [hp3, sigFrac]
    exact mul_nonneg hm2 (by positivity)
  have h32 : 0 < p3.2 := by
    rw [hp3, sigFrac]
    positivity
  have hpp : progress_pct rooms =
      if 100 * p3.2 ≤ p3.1 then 100 else truncFrac p3.1 p3.2 := rfl
  rw [hpp]
  split
  · omega
  · rename_i hlt
    push_neg at hlt
    have heq : truncFrac p3.1 p3.2 = p3.1 / p3.2 := by
      rw [truncFrac, Int.tdiv_eq_ediv h31 h32.le]
    have hub : p3.1 / p3.2 < 100 := by
      rw [Int.ediv_lt_iff_lt_mul h32]
      omega
    have hlb : 0 ≤ p3.1 / p3.2 := Int.ediv_nonneg h31 h32.le
    omega

/-- C4 (amended): the percentage is the claimed expression with
`rooms / cap * 100` evaluated in IEEE double precision, whose truncation can
fall one below the exact floor value (`rooms = 29` gives 28); it still always
lies in `[0, 100]`, equals 0 when `rooms = 0`, and equals 100 — in particular
never exceeds 100 — whenever `rooms ≥ 100`. -/
theorem progress_pct_spec (rooms : ℤ) (h : 0 ≤ rooms) :
    0 ≤ progress_pct rooms ∧ progress_pct rooms ≤ 100 ∧
    (rooms = 0 → progress_pct rooms = 0) ∧
    (100 ≤ rooms → progress_pct rooms = 100) := by
  refine ⟨(progress_pct_bounds rooms h).1, (progress_pct_bounds rooms h).2,
    fun h0 => by subst h0; decide, fun h100 => ?_⟩
  have hcapr : progress_cap rooms = rooms := by
    simp only [progress_cap]
    omega
  have hrpos : (0 : ℤ) < rooms := by omega
  simp only [progress_pct, hcapr, flFrac_self hrpos]
  decide

/-- C4 (witness): the amended bounds applied at `rooms = 42`. -/
theorem progress_pct_spec_witness :
    0 ≤ (42 : ℤ) ∧ 0 ≤ progress_pct 42 ∧ progress_pct 42 ≤ 100 :=
  ⟨by decide, (progress_pct_spec 42 (by decide)).1, (progress_pct_spec 42 (by decide)).2.1⟩

/-! ## Trend synthesizer: claim C1 -/

theorem monofixAux_length : ∀ (p : ℤ) (l : List ℤ), (monofixAux p l).length = l.length
  | _, [] => rfl
  | p, v :: vs => by
    simp only [monofixAux, List.length_cons]
    rw [monofixAux_length (max p v) vs]

theorem monofix_length : ∀ l : List ℤ, (monofix l).length = l.length
  | [] => rfl
  | v :: vs => by
    simp only [monofix, List.length_cons]
    rw [monofixAux_length v vs]

theorem monofixAux_chain' : ∀ (p : ℤ) (l : List ℤ),
    List.Chain' (· ≤ ·) (p :: monofixAux p l)
  | p, [] => List.chain'_singleton p
  | p, v :: vs => by
    simp only [monofixAux]
    exact List.chain'_cons.mpr ⟨le_max_left p v, monofixAux_chain' (max p v) vs⟩

theorem monofix_chain' : ∀ l : List ℤ, List.Chain' (· ≤ ·) (monofix l)
  | [] => List.chain'_nil
  | v :: vs => monofixAux_chain' v vs

theorem monofixAux_nonneg : ∀ (p : ℤ) (l : List ℤ), 0 ≤ p → (∀ v ∈ l, 0 ≤ v) →
    ∀ x ∈ monofixAux p l, 0 ≤ x
  | _, [], _, _ => by simp [monofixAux]
  | p, v :: vs, hp, hl => by
    simp only [monofixAux]
    intro x hx
    rcases List.mem_cons.mp hx with h1 | h2
    · rw [h1]
      exact le_trans hp (le_max_left p v)
    · exact monofixAux_nonneg (max p v) vs (le_trans hp (le_max_left p v))
        (fun w hw => hl w (List.mem_cons_of_mem v hw)) x h2

theorem monofix_nonneg : ∀ l : List ℤ, (∀ v ∈ l, 0 ≤ v) → ∀ x ∈ monofix l, 0 ≤ x
  | [], _ => by simp [monofix]
  | v :: vs, hl => by
    simp only [monofix]
    intro x hx
    rcases List.mem_cons.mp hx with h1 | h2
    · rw [h1]
      exact hl v (List.mem_cons_self v vs)
    · exact monofixAux_nonneg v vs (hl v (List.mem_cons_self v vs))
        (fun w hw => hl w (List.mem_cons_of_mem v hw)) x h2

theorem monofixAux_getLastD : ∀ (l : List ℤ) (p d : ℤ),
    (p :: monofixAux p l).getLastD d = l.foldl max p
  | [], _, _ => rfl
  | v :: vs, p, d => by
    simp only [monofixAux, List.foldl_cons]
    rw [List.getLastD_cons]
    exact monofixAux_getLastD vs (max p v) p

theorem monofix_getLastD : ∀ l : List ℤ, l ≠ [] → ∀ d : ℤ,
    (monofix l).getLastD d = pymaxList l
  | [], h, _ => absurd rfl h
  | v :: vs, _, d => by
    simp only [monofix, pymaxList, pymax]
    exact monofixAux_getLastD vs v d

theorem le_foldl_max_self : ∀ (l : List ℤ) (p : ℤ), p ≤ l.foldl max p
  | [], p => le_refl p
  | v :: vs, p => le_trans (le_max_left p v) (le_foldl_max_self vs (max p v))

theorem le_foldl_max_of_mem : ∀ (l : List ℤ) (p x : ℤ), x ∈ l → x ≤ l.foldl max p
  | v :: vs, p, x, h => by
    rcases List.mem_cons.mp h with h1 | h2
    · simp only [List.foldl_cons]
      rw [h1]
      exact le_trans (le_max_right p v) (le_foldl_max_self vs _)
    · simp only [List.foldl_cons]
      exact le_foldl_max_of_mem vs (max p v) x h2

theorem foldl_max_le : ∀ (l : List ℤ) (p T : ℤ), p ≤ T → (∀ x ∈ l, x ≤ T) →
    l.foldl max p ≤ T
  | [], _, _, hp, _ => hp
  | v :: vs, p, T, hp, h => by
    simp only [List.foldl_cons]
    exact foldl_max_le vs (max p v) T (max_le hp (h v (List.mem_cons_self v vs)))
      (fun x hx => h x (List.mem_cons_of_mem v hx))

theorem pymaxList_eq {l : List ℤ} {T : ℤ} (hall : ∀ x ∈ l, x ≤ T) (hmem : T ∈ l) :
    pymaxList l = T := by
  cases l with
  | nil => cases hmem
  | cons v vs =>
    simp only [pymaxList, pymax]
    refine le_antisymm ?_ ?_
    · exact foldl_max_le vs v T (hall v (List.mem_cons_self v vs))
        (fun x hx => hall x (List.mem_cons_of_mem v hx))
    · rcases List.mem_cons.mp hmem with h1 | h2
      · rw [h1]
        exact le_foldl_max_self vs v
      · exact le_foldl_max_of_mem vs v T h2

theorem le_pymaxList_of_mem : ∀ (l : List ℤ) (x : ℤ), x ∈ l → x ≤ pymaxList l
  | [], x, hx => absurd hx (List.not_mem_nil x)
  | v :: vs, x, hx => by
    simp only [pymaxList, pymax]
    rcases List.mem_cons.mp hx with h1 | h2
    · rw [h1]
      exact le_foldl_max_self vs v
    · exact le_foldl_max_of_mem vs v x h2

theorem rheFrac_le {a b T : ℤ} (hb : 0 < b) (h : a ≤ T * b) : rheFrac a b ≤ T := by
  have hid : b * Int.ediv a b + Int.emod a b = a := Int.ediv_add_emod a b
  have hTb : T * b = b * T := mul_comm T b
  have hf : Int.ediv a b ≤ T := by
    have h1 : Int.ediv a b ≤ Int.ediv (T * b) b := Int.ediv_le_ediv hb h
    have h2 : Int.ediv (T * b) b = T := Int.mul_ediv_cancel T hb.ne'
    exact h2 ▸ h1
  simp only [rheFrac]
  split
  · exact hf
  · rename_i h1
    push_neg at h1
    have hr : 0 < Int.emod a b := by linarith
    rcases lt_or_eq_of_le hf with hlt | heq
    · split
      · linarith
      · split <;> linarith
    · exfalso
      rw [heq] at hid
      linarith

theorem rheFrac_mul_self {b T : ℤ} (hb : 0 < b) : rheFrac (b * T) b = T := by
  have hdiv : Int.ediv (b * T) b = T := Int.mul_ediv_cancel_left _ hb.ne'
  have hmod : Int.emod (b * T) b = 0 := Int.mul_emod_right b T
  simp [rheFrac, hdiv, hmod, hb]

theorem getLastD_replicate (a d : ℤ) : ∀ n : ℕ, n ≠ 0 →
    (List.replicate n a).getLastD d = a
  | 0, h => absurd rfl h
  | n + 1, _ => by
    rw [List.replicate_succ, List.getLastD_cons]
    cases n with
    | zero => rfl
    | succ m => exact getLastD_replicate a a (m + 1) (Nat.succ_ne_zero m)

theorem getLastD_map_range (f : ℕ → ℤ) (p : ℕ) (hp : p ≠ 0) (d : ℤ) :
    ((List.range p).map f).getLastD d = f (p - 1) := by
  obtain ⟨q, rfl⟩ : ∃ q, p = q + 1 := ⟨p - 1, by omega⟩
  rw [List.range_succ, List.map_append]
  simp [List.getLastD_concat]

theorem trendRamp_length (base : ℤ) (p : ℕ) : (trendRamp base p).length = p := by
  simp [trendRamp]

theorem trendRamp_getLastD (base : ℤ) (p : ℕ) (hp : p ≠ 0) (d : ℤ) :
    (trendRamp base p).getLastD d = base + ((p - 1 : ℕ) : ℤ) :=
  getLastD_map_range _ p hp d

theorem trendRamp_mem {x base : ℤ} {p : ℕ} (h : x ∈ trendRamp base p) :
    ∃ i : ℕ, i < p ∧ base + (i : ℤ) = x := by
  obtain ⟨i, hi, rfl⟩ := List.mem_map.mp h
  exact ⟨i, List.mem_range.mp hi, rfl⟩

theorem trendRamp_last_mem (base : ℤ) {p : ℕ} (hp : p ≠ 0) :
    base + ((p - 1 : ℕ) : ℤ) ∈ trendRamp base p :=
  List.mem_map.mpr ⟨p - 1, List.mem_range.mpr (by omega), rfl⟩

/-- C1 (amended): for every non-negative target `T` and point count `N ≥ 2`,
`synthesize_trend T N` returns exactly `N` non-negative integers and the
sequence is monotonically non-decreasing; for `T = 0` it is `N` zeros, and
whenever `N - 1 ≤ T` (the ramp already ends at `T` and no rescale happens)
the final element equals `T`.  In the rescale branch (`T < N - 1`) the final
element is the double-precision rescale's result, which agrees with `T` at
every feasible size but is not exactly guaranteed
(`synthesize_trend_counterexample`). -/
theorem synthesize_trend_spec (T N : ℤ) (hT : 0 ≤ T) (hN : 2 ≤ N) :
    (synthesize_trend T N).length = N.toNat ∧
    (∀ v ∈ synthesize_trend T N, 0 ≤ v) ∧
    List.Chain' (· ≤ ·) (synthesize_trend T N) ∧
    (N - 1 ≤ T → (synthesize_trend T N).getLastD (-1) = T) ∧
    (T = 0 → synthesize_trend T N = List.replicate N.toNat 0) := by
  have hmax : max 2 N = N := max_eq_right hN
  rcases eq_or_lt_of_le hT with h0 | hpos
  · subst h0
    simp only [synthesize_trend, hmax, if_pos (le_refl (0 : ℤ))]
    refine ⟨by simp, ?_, List.chain'_replicate_of_rel _ le_rfl, ?_, by trivial⟩
    · intro v hv
      rw [List.eq_of_mem_replicate hv]
    · intro hL
      exact absurd hL (by omega)
  · have hTne : ¬ (T ≤ 0) := not_le.mpr hpos
    have hgoal : synthesize_trend T N =
        monofix (trendScale T
          ((trendRamp (max 0 (T - (N - 1))) N.toNat).getLastD 0)
          (trendRamp (max 0 (T - (N - 1))) N.toNat)) := by
      simp only [synthesize_trend, hmax, if_neg hTne]
    rw [hgoal]
    obtain ⟨base, hbase⟩ : ∃ b : ℤ, max 0 (T - (N - 1)) = b := ⟨_, rfl⟩
    have hbase0 : 0 ≤ base := hbase ▸ le_max_left _ _
    rw [hbase]
    obtain ⟨p, hp, hp2⟩ : ∃ p : ℕ, N.toNat = p ∧ 2 ≤ p := ⟨N.toNat, rfl, by omega⟩
    rw [hp]
    rw [trendRamp_getLastD base p (by omega) 0]
    have hlastpos : 0 < base + ((p - 1 : ℕ) : ℤ) := by
      have : (1 : ℤ) ≤ ((p - 1 : ℕ) : ℤ) := by omega
      omega
    obtain ⟨last, hlastd⟩ : ∃ L : ℤ, base + ((p - 1 : ℕ) : ℤ) = L := ⟨_, rfl⟩
    rw [hlastd]
    rw [hlastd] at hlastpos
    have hvmem : ∀ x ∈ trendRamp base p, base ≤ x ∧ x ≤ last := by
      intro x hx
      obtain ⟨i, hi, rfl⟩ := trendRamp_mem hx
      have : (i : ℤ) ≤ ((p - 1 : ℕ) : ℤ) := by omega
      omega
    have hlastmem : last ∈ trendRamp base p := hlastd ▸ trendRamp_last_mem base (by omega)
    have hv2len : (trendScale T last (trendRamp base p)).length = p := by
      rw [trendScale]
      split <;> simp [trendRamp_length]
    have hv2nonneg : ∀ x ∈ trendScale T last (trendRamp base p), 0 ≤ x := by
      rw [trendScale]
      split
      · intro x hx
        obtain ⟨v, _, rfl⟩ := List.mem_map.mp hx
        exact le_max_left 0 _
      · intro x hx
        rcases hvmem x hx with ⟨h1, _⟩
        omega
    refine ⟨?_, monofix_nonneg _ hv2nonneg, monofix_chain' _, ?_,
      fun h0 => absurd h0 hpos.ne'⟩
    · rw [monofix_length, hv2len]
    · intro hL
      have hlastT : last = T := by omega
      have hid : trendScale T last (trendRamp base p) = trendRamp base p := by
        rw [trendScale, if_neg]
        intro hc
        exact hc.1 hlastT
      have hne2 : trendRamp base p ≠ [] := by
        intro hnil
        have hlen := congrArg List.length hnil
        rw [trendRamp_length] at hlen
        simp at hlen
        omega
      rw [hid, monofix_getLastD _ hne2]
      refine pymaxList_eq ?_ (hlastT ▸ hlastmem)
      intro x hx
      rcases hvmem x hx with ⟨_, h2⟩
      omega

/-- C1 (witness): the amended trend contract applied at `T = 5`, `N = 3`
(the no-rescale branch, whose final element the theorem pins to `T`). -/
theorem synthesize_trend_spec_witness :
    ((0 : ℤ) ≤ 5 ∧ (2 : ℤ) ≤ 3 ∧ (3 : ℤ) - 1 ≤ 5) ∧
    (synthesize_trend 5 3).getLastD (-1) = 5 ∧
    (synthesize_trend 5 3).length = (3 : ℤ).toNat :=
  ⟨⟨by decide, by decide, by decide⟩,
    (synthesize_trend_spec 5 3 (by decide) (by decide)).2.2.2.1 (by decide),
    (synthesize_trend_spec 5 3 (by decide) (by decide)).1⟩

set_option maxRecDepth 8000 in
/-- C1 (counterexample): the rescale `values = [max(0, int(round(v * scale)))
for v in values]` works in double precision, so the claimed exact landing of
the final element on `T` can fail: with `T = 6902491098965293` (a 53-bit
target) and `N = 10513595326250541` points, the scaled top-of-ramp value
`round(10513595326250540 * (T / float(10513595326250540)))` rounds to
`T + 1`, and the monotone repair keeps it, so the final element of
`synthesize_trend T N` is not `T`. -/
theorem synthesize_trend_counterexample :
    (0 : ℤ) ≤ 6902491098965293 ∧ (2 : ℤ) ≤ 10513595326250541 ∧
    (synthesize_trend 6902491098965293 10513595326250541).getLastD (-1) ≠
      6902491098965293 := by
  refine ⟨by decide, by decide, ?_⟩
  have hmax : max (2 : ℤ) 10513595326250541 = 10513595326250541 := by decide
  have hTne : ¬ ((6902491098965293 : ℤ) ≤ 0) := by decide
  have hgoal : synthesize_trend 6902491098965293 10513595326250541 =
      monofix (trendScale 6902491098965293
        ((trendRamp (max 0 (6902491098965293 - (10513595326250541 - 1)))
          (10513595326250541 : ℤ).toNat).getLastD 0)
        (trendRamp (max 0 (6902491098965293 - (10513595326250541 - 1)))
          (10513595326250541 : ℤ).toNat)) := by
    simp only [synthesize_trend, hmax, if_neg hTne]
  rw [hgoal]
  have hbase : max (0 : ℤ) (6902491098965293 - (10513595326250541 - 1)) = 0 := by
    decide
  have hp : (10513595326250541 : ℤ).toNat = 10513595326250541 := by decide
  rw [hbase, hp]
  have hlast : (trendRamp (0 : ℤ) 10513595326250541).getLastD 0 =
      10513595326250540 := by
    rw [trendRamp_getLastD 0 10513595326250541 (by decide) 0]
    decide
  rw [hlast]
  rw [trendScale, if_pos ⟨by decide, by decide⟩]
  have hne2 : (trendRamp (0 : ℤ) 10513595326250541).map (fun v =>
      max 0 (rhePair (flMulPair (pyFloat v)
        (flDivPair (pyFloat 6902491098965293) (pyFloat 10513595326250540))))) ≠
      [] := by
    intro hnil
    have hlen := congrArg List.length hnil
    rw [List.length_map, trendRamp_length] at hlen
    exact absurd hlen (by decide)
  rw [monofix_getLastD _ hne2]
  have hmem : (10513595326250540 : ℤ) ∈ trendRamp (0 : ℤ) 10513595326250541 := by
    have h := @trendRamp_last_mem (0 : ℤ) 10513595326250541 (by decide)
    have he : (0 : ℤ) + ((10513595326250541 - 1 : ℕ) : ℤ) = 10513595326250540 := by
      decide
    rwa [he] at h
  have hvmem : (6902491098965294 : ℤ) ∈ (trendRamp (0 : ℤ) 10513595326250541).map
      (fun v => max 0 (rhePair (flMulPair (pyFloat v)
        (flDivPair (pyFloat 6902491098965293) (pyFloat 10513595326250540))))) :=
    List.mem_map.mpr ⟨10513595326250540, hmem, by decide⟩
  have hle := le_pymaxList_of_mem _ _ hvmem
  intro heq
  rw [heq] at hle
  exact absurd hle (by decide)

/-! ## Geometry mapper: claims C5 and C6 -/

theorem truncFrac_nonneg {a b : ℤ} (ha : 0 ≤ a) (hb : 0 ≤ b) : 0 ≤ truncFrac a b :=
  Int.tdiv_nonneg ha hb

theorem truncFrac_le {a b c : ℤ} (ha : 0 ≤ a) (hb : 0 < b) (h : a ≤ c * b) :
    truncFrac a b ≤ c := by
  rw [truncFrac, Int.tdiv_eq_ediv ha hb.le]
  have h1 : Int.ediv a b ≤ Int.ediv (c * b) b := Int.ediv_le_ediv hb h
  have h2 : Int.ediv (c * b) b = c := Int.mul_ediv_cancel c hb.ne'
  exact h2 ▸ h1

theorem bitLenAux_zero : ∀ fuel : ℕ, bitLenAux fuel 0 = 0
  | 0 => rfl
  | _ + 1 => by simp [bitLenAux]

/-- `bitLen` is correct: it brackets a positive `n` between consecutive
powers of two. -/
theorem bitLenAux_spec : ∀ (fuel n : ℕ), n ≤ fuel → n ≠ 0 →
    2 ^ (bitLenAux fuel n - 1) ≤ n ∧ n < 2 ^ bitLenAux fuel n
  | 0, n, hle, hne => absurd (Nat.le_zero.mp hle) hne
  | fuel + 1, n, hle, hne => by
    simp only [bitLenAux, if_neg hne]
    rcases Nat.lt_or_ge n 2 with h2 | h2
    · have h1 : n = 1 := by omega
      subst h1
      rw [show (1 : ℕ) / 2 = 0 from rfl, bitLenAux_zero]
      norm_num
    · have hhalf_ne : n / 2 ≠ 0 := by omega
      have hhalf_le : n / 2 ≤ fuel := by omega
      obtain ⟨hlo, hhi⟩ := bitLenAux_spec fuel (n / 2) hhalf_le hhalf_ne
      obtain ⟨L, hL⟩ : ∃ L, bitLenAux fuel (n / 2) = L := ⟨_, rfl⟩
      rw [hL] at hlo hhi
      rw [hL]
      have hLpos : 1 ≤ L := by
        rcases Nat.eq_zero_or_pos L with h0 | h1
        · rw [h0] at hhi
          norm_num at hhi
          omega
        · exact h1
      obtain ⟨P, hP⟩ : ∃ P, 2 ^ (L - 1) = P := ⟨_, rfl⟩
      obtain ⟨Q, hQ⟩ : ∃ Q, 2 ^ L = Q := ⟨_, rfl⟩
      rw [hP] at hlo
      rw [hQ] at hhi
      have e1 : 2 ^ L = 2 * P := by
        conv_lhs => rw [show L = (L - 1) + 1 by omega]
        rw [pow_succ, hP]
        ring
      have e2 : 2 ^ (L + 1) = 2 * Q := by
        rw [pow_succ, hQ]
        ring
      rw [show L + 1 - 1 = L by omega, e1, e2]
      omega

theorem bitLen_spec {n : ℕ} (hn : n ≠ 0) :
    2 ^ (bitLen n - 1) ≤ n ∧ n < 2 ^ bitLen n :=
  bitLenAux_spec n n le_rfl hn

/-- The two shapes `flFrac` can take for a nonzero numerator, with the
chosen binary exponent `e` exposed. -/
theorem flFrac_cases {a b : ℤ} (ha0 : a ≠ 0) :
    ∃ e : ℤ,
      flFrac a b =
        ((if 0 ≤ e - 52 then rheFrac a (b * 2 ^ (e - 52).toNat)
          else rheFrac (a * 2 ^ (-(e - 52)).toNat) b), e - 52) ∧
      ((e = (bitLen a.natAbs : ℤ) - (bitLen b.natAbs : ℤ) ∧ pow2le b a e = true) ∨
       e = (bitLen a.natAbs : ℤ) - (bitLen b.natAbs : ℤ) - 1) := by
  by_cases hp : pow2le b a ((bitLen a.natAbs : ℤ) - (bitLen b.natAbs : ℤ)) = true
  · refine ⟨(bitLen a.natAbs : ℤ) - (bitLen b.natAbs : ℤ), ?_, Or.inl ⟨rfl, hp⟩⟩
    simp only [flFrac, if_neg ha0, hp, if_true]
  · refine ⟨(bitLen a.natAbs : ℤ) - (bitLen b.natAbs : ℤ) - 1, ?_, Or.inr rfl⟩
    simp only [flFrac, if_neg ha0, if_neg hp]

/-- Master bound: a correctly rounded double never exceeds an integer bound
`K < 2^53` that dominates the exact fraction.  (For `K ≥ 2^53` this can
fail — the rounding can land above `K` — which is exactly what the
geometry counterexample exploits.) -/
theorem flFrac_sig_le {a b K : ℤ} (ha : 0 ≤ a) (hb : 0 < b) (hK : 0 ≤ K)
    (hK53 : K < 2 ^ 53) (h : a ≤ K * b) :
    (sigFrac (flFrac a b)).1 ≤ K * (sigFrac (flFrac a b)).2 := by
  by_cases ha0 : a = 0
  · subst ha0
    simp only [flFrac, if_pos rfl, sigFrac]
    norm_num
    exact hK
  · obtain ⟨e, hfl, hcase⟩ := @flFrac_cases a b ha0
    rw [hfl]
    by_cases hE : (0 : ℤ) ≤ e - 52
    · rw [if_pos hE]
      have h52 : e = 52 := by
        by_contra hne52
        have he53 : 53 ≤ e := by omega
        have hba : b * 2 ^ e.toNat ≤ a := by
          rcases hcase with ⟨_, htrue⟩ | he0
          · have h0e : (0 : ℤ) ≤ e := by omega
            simp only [pow2le, if_pos h0e, decide_eq_true_eq] at htrue
            exact htrue
          · have hane : a.natAbs ≠ 0 := Int.natAbs_ne_zero.mpr ha0
            have hbne : b.natAbs ≠ 0 := Int.natAbs_ne_zero.mpr hb.ne'
            obtain ⟨hba1, _⟩ := bitLen_spec hane
            obtain ⟨_, hbb2⟩ := bitLen_spec hbne
            have hcast_a : (a.natAbs : ℤ) = a := Int.natAbs_of_nonneg ha
            have hcast_b : (b.natAbs : ℤ) = b := Int.natAbs_of_nonneg hb.le
            have hexp : bitLen a.natAbs - 1 = bitLen b.natAbs + e.toNat := by
              omega
            have hblt : (b : ℤ) < 2 ^ bitLen b.natAbs := by
              rw [← hcast_b]
              exact_mod_cast hbb2
            have halow : (2 : ℤ) ^ (bitLen a.natAbs - 1) ≤ a := by
              rw [← hcast_a]
              exact_mod_cast hba1
            have hsplit : (2 : ℤ) ^ (bitLen a.natAbs - 1) =
                2 ^ bitLen b.natAbs * 2 ^ e.toNat := by
              rw [← pow_add, hexp]
            have hlt : b * 2 ^ e.toNat < 2 ^ (bitLen a.natAbs - 1) := by
              rw [hsplit]
              exact mul_lt_mul_of_pos_right hblt (by positivity)
            linarith
        have hpow53 : (2 : ℤ) ^ 53 ≤ 2 ^ e.toNat := by
          have he' : 53 ≤ e.toNat := by omega
          exact pow_le_pow_right₀ (by norm_num) he'
        have h1 : b * 2 ^ 53 ≤ b * 2 ^ e.toNat :=
          mul_le_mul_of_nonneg_left hpow53 hb.le
        have h2 : K * b < 2 ^ 53 * b := mul_lt_mul_of_pos_right hK53 hb
        have h3 : b * (2 : ℤ) ^ 53 = 2 ^ 53 * b := mul_comm _ _
        linarith
      subst h52
      norm_num [sigFrac]
      exact rheFrac_le hb h
    · rw [if_neg hE]
      have hmax1 : (max (e - 52) (0 : ℤ)).toNat = 0 := by
        rw [max_eq_right (by omega)]
        rfl
      have hmax2 : (max (-(e - 52)) (0 : ℤ)).toNat = (-(e - 52)).toNat := by
        rw [max_eq_left (by omega)]
      simp only [sigFrac, hmax1, hmax2, pow_zero, mul_one]
      refine rheFrac_le hb ?_
      calc a * 2 ^ (-(e - 52)).toNat ≤ (K * b) * 2 ^ (-(e - 52)).toNat :=
            mul_le_mul_of_nonneg_right h (by positivity)
        _ = (K * 2 ^ (-(e - 52)).toNat) * b := by ring

theorem sigFrac_snd_pos (p : ℤ × ℤ) : 0 < (sigFrac p).2 := by
  simp only [sigFrac]
  positivity

theorem sigFrac_flFrac_fst_nonneg {a b : ℤ} (ha : 0 ≤ a) (hb : 0 < b) :
    0 ≤ (sigFrac (flFrac a b)).1 := by
  simp only [sigFrac]
  exact mul_nonneg (flFrac_fst_nonneg ha hb) (by positivity)

theorem truncPair_nonneg {p : ℤ × ℤ} (h : 0 ≤ (sigFrac p).1) : 0 ≤ truncPair p :=
  truncFrac_nonneg h (sigFrac_snd_pos p).le

theorem truncPair_le {p : ℤ × ℤ} {K : ℤ} (h1 : 0 ≤ (sigFrac p).1)
    (h : (sigFrac p).1 ≤ K * (sigFrac p).2) : truncPair p ≤ K :=
  truncFrac_le h1 (sigFrac_snd_pos p) h

/-- A product of two doubles bounded by `K1` and `K2` stays bounded by
`K1 * K2` after the rounding, provided `K1 * K2 < 2^53`. -/
theorem flMulPair_sig_bound {p q : ℤ × ℤ} {K1 K2 : ℤ}
    (hp1 : 0 ≤ (sigFrac p).1) (hq1 : 0 ≤ (sigFrac q).1)
    (hpK : (sigFrac p).1 ≤ K1 * (sigFrac p).2)
    (hqK : (sigFrac q).1 ≤ K2 * (sigFrac q).2)
    (hK1 : 0 ≤ K1) (hK2 : 0 ≤ K2) (hKK : K1 * K2 < 2 ^ 53) :
    0 ≤ (sigFrac (flMulPair p q)).1 ∧
    (sigFrac (flMulPair p q)).1 ≤ (K1 * K2) * (sigFrac (flMulPair p q)).2 := by
  have hd1 : 0 < (sigFrac p).2 := sigFrac_snd_pos p
  have hd2 : 0 < (sigFrac q).2 := sigFrac_snd_pos q
  have hnum : 0 ≤ (sigFrac p).1 * (sigFrac q).1 := mul_nonneg hp1 hq1
  have hden : 0 < (sigFrac p).2 * (sigFrac q).2 := mul_pos hd1 hd2
  have hle : (sigFrac p).1 * (sigFrac q).1 ≤
      (K1 * K2) * ((sigFrac p).2 * (sigFrac q).2) := by
    calc (sigFrac p).1 * (sigFrac q).1
        ≤ (K1 * (sigFrac p).2) * (K2 * (sigFrac q).2) :=
          mul_le_mul hpK hqK hq1 (by positivity)
      _ = (K1 * K2) * ((sigFrac p).2 * (sigFrac q).2) := by ring
  rw [flMulPair]
  exact ⟨sigFrac_flFrac_fst_nonneg hnum hden,
    flFrac_sig_le hnum hden (mul_nonneg hK1 hK2) hKK hle⟩

/-- Bounds on the sparkline x coordinate `int(fl(fl(i/d) * float(W)))` for
`0 ≤ i ≤ d` and a representable width. -/
theorem spark_x_bounds {i d W : ℤ} (hi : 0 ≤ i) (hid : i ≤ d) (hd : 0 < d)
    (hW : 0 ≤ W) (hW53 : W < 2 ^ 53) :
    0 ≤ truncPair (flMulPair (flFrac i d) (pyFloat W)) ∧
    truncPair (flMulPair (flFrac i d) (pyFloat W)) ≤ W := by
  have hp1 : 0 ≤ (sigFrac (flFrac i d)).1 := sigFrac_flFrac_fst_nonneg hi hd
  have hpK : (sigFrac (flFrac i d)).1 ≤ 1 * (sigFrac (flFrac i d)).2 :=
    flFrac_sig_le hi hd zero_le_one (by norm_num) (by omega)
  have hq1 : 0 ≤ (sigFrac (pyFloat W)).1 := by
    rw [pyFloat]
    exact sigFrac_flFrac_fst_nonneg hW one_pos
  have hqK : (sigFrac (pyFloat W)).1 ≤ W * (sigFrac (pyFloat W)).2 := by
    rw [pyFloat]
    exact flFrac_sig_le hW one_pos hW hW53 (le_of_eq (mul_one W).symm)
  obtain ⟨hm0, hmK⟩ := flMulPair_sig_bound hp1 hq1 hpK hqK zero_le_one hW
    (by rw [one_mul]; exact hW53)
  rw [one_mul] at hmK
  exact ⟨truncPair_nonneg hm0, truncPair_le hm0 hmK⟩

/-- Bounds on the sparkline y coordinate
`int(fl(fl(1 - fl(v/maxv)) * float(H)))` for `0 ≤ v ≤ maxv` and a
representable height. -/
theorem spark_y_bounds {v maxv H : ℤ} (hv : 0 ≤ v) (hvm : v ≤ maxv)
    (hm : 0 < maxv) (hH : 0 ≤ H) (hH53 : H < 2 ^ 53) :
    0 ≤ truncPair (flMulPair (flOneSub (flFrac v maxv)) (pyFloat H)) ∧
    truncPair (flMulPair (flOneSub (flFrac v maxv)) (pyFloat H)) ≤ H := by
  have hb1 : (sigFrac (flFrac v maxv)).1 ≤ 1 * (sigFrac (flFrac v maxv)).2 :=
    flFrac_sig_le hv hm zero_le_one (by norm_num) (by omega)
  have hn1 : 0 ≤ (sigFrac (flFrac v maxv)).1 := sigFrac_flFrac_fst_nonneg hv hm
  have hd1 : 0 < (sigFrac (flFrac v maxv)).2 := sigFrac_snd_pos _
  have hs_nonneg : 0 ≤ (sigFrac (flFrac v maxv)).2 - (sigFrac (flFrac v maxv)).1 := by
    omega
  have hs_le : (sigFrac (flFrac v maxv)).2 - (sigFrac (flFrac v maxv)).1 ≤
      1 * (sigFrac (flFrac v maxv)).2 := by omega
  have hp1 : 0 ≤ (sigFrac (flOneSub (flFrac v maxv))).1 := by
    rw [flOneSub]
    exact sigFrac_flFrac_fst_nonneg hs_nonneg hd1
  have hpK : (sigFrac (flOneSub (flFrac v maxv))).1 ≤
      1 * (sigFrac (flOneSub (flFrac v maxv))).2 := by
    rw [flOneSub]
    exact flFrac_sig_le hs_nonneg hd1 zero_le_one (by norm_num) hs_le
  have hq1 : 0 ≤ (sigFrac (pyFloat H)).1 := by
    rw [pyFloat]
    exact sigFrac_flFrac_fst_nonneg hH one_pos
  have hqK : (sigFrac (pyFloat H)).1 ≤ H * (sigFrac (pyFloat H)).2 := by
    rw [pyFloat]
    exact flFrac_sig_le hH one_pos hH hH53 (le_of_eq (mul_one H).symm)
  obtain ⟨hm0, hmK⟩ := flMulPair_sig_bound hp1 hq1 hpK hqK zero_le_one hH
    (by rw [one_mul]; exact hH53)
  rw [one_mul] at hmK
  exact ⟨truncPair_nonneg hm0, truncPair_le hm0 hmK⟩

theorem flMulPair_zero_left (q : ℤ × ℤ) : flMulPair (0, 0) q = (0, 0) := by
  simp [flMulPair, sigFrac, flFrac]

/-- At the maximum value the normalized ratio is exactly `1.0`
(`flFrac_self`), so `1 - 1.0 = 0.0` and the y coordinate is exactly 0. -/
theorem spark_y_at_max {maxv H : ℤ} (hm : 0 < maxv) :
    truncPair (flMulPair (flOneSub (flFrac maxv maxv)) (pyFloat H)) = 0 := by
  rw [flFrac_self hm,
    show flOneSub ((4503599627370496 : ℤ), (-52 : ℤ)) = ((0 : ℤ), (0 : ℤ)) by decide,
    flMulPair_zero_left]
  decide

theorem foldr_max_eq_pymax : ∀ (vs : List ℤ) (v0 : ℤ), 0 ≤ v0 →
    (v0 :: vs).foldr max 0 = pymax v0 vs
  | [], v0, h0 => by
    simp only [List.foldr_cons, List.foldr_nil, pymax, List.foldl_nil]
    exact max_eq_left h0
  | a :: t, v0, h0 => by
    have h1 : (0 : ℤ) ≤ max v0 a := le_trans h0 (le_max_left _ _)
    have ih := foldr_max_eq_pymax t (max v0 a) h1
    simp only [List.foldr_cons, pymax, List.foldl_cons] at ih ⊢
    rw [← max_assoc]
    exact ih

theorem le_pymax_of_mem_cons {v0 x : ℤ} {vs : List ℤ} (hx : x ∈ v0 :: vs) :
    x ≤ pymax v0 vs := by
  rcases List.mem_cons.mp hx with h1 | h2
  · rw [h1]
    exact le_foldl_max_self vs v0
  · exact le_foldl_max_of_mem vs v0 x h2

theorem le_maxv {v0 : ℤ} {vs : List ℤ} (hv : ∀ v ∈ v0 :: vs, 0 ≤ v) {x : ℤ}
    (hx : x ∈ v0 :: vs) : x ≤ (if pymax v0 vs = 0 then 1 else pymax v0 vs) := by
  have hxm : x ≤ pymax v0 vs := le_pymax_of_mem_cons hx
  split
  · rename_i hm
    have := hv x hx
    omega
  · exact hxm

theorem maxv_pos {v0 : ℤ} (vs : List ℤ) (hv0 : 0 ≤ v0) :
    0 < (if pymax v0 vs = 0 then 1 else pymax v0 vs) := by
  have hm : 0 ≤ pymax v0 vs := le_trans hv0 (le_foldl_max_self vs v0)
  split
  · norm_num
  · rename_i h
    omega

theorem build_sparkline_points_getD (v0 : ℤ) (vs : List ℤ) (W H : ℤ) (i : ℕ)
    (hi : i < vs.length + 1) :
    (build_sparkline_points (v0 :: vs) W H).getD i (0, 0) =
      ((if 1 < vs.length + 1 then
          truncPair (flMulPair (flFrac (i : ℤ) ((((vs.length + 1 : ℕ)) : ℤ) - 1))
            (pyFloat W))
        else 0),
       truncPair (flMulPair (flOneSub (flFrac ((v0 :: vs).getD i 0)
           (if pymax v0 vs = 0 then 1 else pymax v0 vs))) (pyFloat H))) := by
  simp only [build_sparkline_points]
  rw [List.getD_eq_getElem _ _ (by simpa using hi)]
  rw [List.getElem_map, List.getElem_zip, List.getElem_range]
  rw [List.getD_eq_getElem _ _ (by simpa using hi)]

set_option maxRecDepth 8000 in
/-- C5 (counterexample): the claim maps values through `round`, but the code
truncates with `int`: on the trend `[1, 2, 3]` with the script's 360×44
canvas, the middle point's exact height is `(1 - 2/3)·44 = 14.67`, which the
code truncates to `y = 14` while the claim's rounding gives `y = 15`. -/
theorem sparkline_round_counterexample :
    ((build_sparkline_points [1, 2, 3] 360 44).getD 1 (0, 0)).2 = 14 ∧
    ((sparkline_round_spec [1, 2, 3] 360 44).getD 1 (0, 0)).2 = 15 := by
  constructor
  · decide
  · have hr : List.range 3 = [0, 1, 2] := by decide
    norm_num [sparkline_round_spec, pymax, hr, List.zip, List.zipWith, List.getD,
      round_eq]

/-- C5 (amended): for every non-empty trend sequence, the Geometry Mapper
maps index `i` of `N` points to
`x = int(fl(fl(i/(N-1)) * float(W)))` (0 when `N = 1`) and each value `v`,
normalized by the sequence maximum (factor 1 when the maximum is 0), to
`y = int(fl(fl(1 - fl(v/maxv)) * float(H)))`: every intermediate quantity is
one correctly rounded IEEE-754 double operation and `int` truncates (rather
than rounds) the final double toward zero. -/
theorem build_sparkline_points_trunc (v0 : ℤ) (vs : List ℤ) (W H : ℤ) (i : ℕ)
    (hi : i < vs.length + 1) :
    (build_sparkline_points (v0 :: vs) W H).length = vs.length + 1 ∧
    (build_sparkline_points (v0 :: vs) W H).getD i (0, 0) =
      ((if 1 < vs.length + 1 then
          truncPair (flMulPair (flFrac (i : ℤ) ((((vs.length + 1 : ℕ)) : ℤ) - 1))
            (pyFloat W))
        else 0),
       truncPair (flMulPair (flOneSub (flFrac ((v0 :: vs).getD i 0)
           (if pymax v0 vs = 0 then 1 else pymax v0 vs))) (pyFloat H))) :=
  ⟨by simp [build_sparkline_points], build_sparkline_points_getD v0 vs W H i hi⟩

set_option maxRecDepth 8000 in
/-- C5 (witness): the amended per-index formulas applied to the middle point
of the concrete trend `[1, 2, 3]` on the script's 360×44 sparkline canvas
(where they evaluate to `x = 180`, `y = 14`). -/
theorem build_sparkline_points_trunc_witness :
    1 < ([2, 3] : List ℤ).length + 1 ∧
    (build_sparkline_points [1, 2, 3] 360 44).getD 1 (0, 0) = (180, 14) :=
  ⟨by decide,
    ((build_sparkline_points_trunc 1 [2, 3] 360 44 1 (by decide)).2).trans (by decide)⟩

set_option maxRecDepth 8000 in
/-- C6 (counterexample): the claim bounds every `y` by `H` for every canvas,
but the code converts `H` to a double before multiplying: at
`H = 2^60 + 129` (not representable in 53 bits) the conversion rounds up to
`2^60 + 256`, and the minimum-value point of the trend `[0, 1]` gets
`y = int((1 - 0/1) * float(H)) = 2^60 + 256 > H`. -/
theorem sparkline_geometry_counterexample :
    (∀ v ∈ ([0, 1] : List ℤ), 0 ≤ v) ∧ (0 : ℤ) ≤ 1152921504606847105 ∧
    ¬ (∀ pt ∈ build_sparkline_points [0, 1] 360 1152921504606847105,
        pt.2 ≤ 1152921504606847105) :=
  ⟨by decide, by decide, by decide⟩

/-- C6 (amended): for every non-empty trend sequence of non-negative values
and a canvas whose non-negative width and height are exactly representable
as doubles (below `2^53` — any real canvas, in particular the script's fixed
360×44), the Geometry Mapper's output has one point per input value, every
`x` lies in `[0, W]`, every `y` lies in `[0, H]`, and a point whose trend
value is the sequence maximum has the minimum `y` coordinate among all
output points.  The representability bound is forced by
`sparkline_geometry_counterexample`. -/
theorem sparkline_geometry (values : List ℤ) (W H : ℤ) (hne : values ≠ [])
    (hv : ∀ v ∈ values, 0 ≤ v) (hW : 0 ≤ W) (hW53 : W < 2 ^ 53)
    (hH : 0 ≤ H) (hH53 : H < 2 ^ 53) :
    (build_sparkline_points values W H).length = values.length ∧
    (∀ pt ∈ build_sparkline_points values W H,
      0 ≤ pt.1 ∧ pt.1 ≤ W ∧ 0 ≤ pt.2 ∧ pt.2 ≤ H) ∧
    (∀ i j : ℕ, i < values.length → j < values.length →
      values.getD i 0 = pymaxList values →
      ((build_sparkline_points values W H).getD i (0, 0)).2 ≤
        ((build_sparkline_points values W H).getD j (0, 0)).2) := by
  cases values with
  | nil => exact absurd rfl hne
  | cons v0 vs =>
    have hv0 : 0 ≤ v0 := hv v0 (List.mem_cons_self v0 vs)
    have hmaxv := maxv_pos vs hv0
    refine ⟨?_, ?_, ?_⟩
    · simp [build_sparkline_points]
    · intro pt hpt
      simp only [build_sparkline_points] at hpt
      obtain ⟨iv, hiv, rfl⟩ := List.mem_map.mp hpt
      obtain ⟨hi, hvm⟩ := List.of_mem_zip hiv
      have hin : iv.1 < vs.length + 1 := List.mem_range.mp hi
      have hvnn : 0 ≤ iv.2 := hv iv.2 hvm
      have hvle : iv.2 ≤ (if pymax v0 vs = 0 then 1 else pymax v0 vs) := le_maxv hv hvm
      obtain ⟨hy0, hyH⟩ := spark_y_bounds hvnn hvle hmaxv hH hH53
      dsimp only
      refine ⟨?_, ?_, hy0, hyH⟩
      · split
        · rename_i hgt
          exact (spark_x_bounds (by positivity) (by omega) (by omega) hW hW53).1
        · exact le_refl 0
      · split
        · rename_i hgt
          exact (spark_x_bounds (by positivity) (by omega) (by omega) hW hW53).2
        · exact hW
    · intro i j hi hj hmax
      simp only [List.length_cons] at hi hj
      simp only [pymaxList] at hmax
      rw [build_sparkline_points_getD v0 vs W H i hi,
        build_sparkline_points_getD v0 vs W H j hj]
      have hmemj : (v0 :: vs).getD j 0 ∈ v0 :: vs := by
        rw [List.getD_eq_getElem _ _ (by simpa using hj)]
        exact List.getElem_mem _
      have hjnn : 0 ≤ (v0 :: vs).getD j 0 := hv _ hmemj
      by_cases hm : pymax v0 vs = 0
      · have hjle0 : (v0 :: vs).getD j 0 ≤ 0 := (le_pymax_of_mem_cons hmemj).trans (le_of_eq hm)
        have hjeq : (v0 :: vs).getD j 0 = 0 := le_antisymm hjle0 hjnn
        have hieq : (v0 :: vs).getD i 0 = 0 := by rw [hmax, hm]
        simp only [if_pos hm, hieq, hjeq]
        exact le_refl _
      · have hjle : (v0 :: vs).getD j 0 ≤ pymax v0 vs := le_pymax_of_mem_cons hmemj
        have hmpos : 0 < pymax v0 vs := by
          have := maxv_pos vs hv0
          rw [if_neg hm] at this
          exact this
        simp only [if_neg hm, hmax]
        rw [spark_y_at_max hmpos]
        exact (spark_y_bounds hjnn hjle hmpos hH hH53).1

/-- C6 (witness): the amended geometry bounds applied to the concrete trend
`[1, 2, 3]` on the script's (representable) 360×44 sparkline canvas. -/
theorem sparkline_geometry_witness :
    (([1, 2, 3] : List ℤ) ≠ [] ∧ (∀ v ∈ ([1, 2, 3] : List ℤ), 0 ≤ v) ∧
      (0 : ℤ) ≤ 360 ∧ (360 : ℤ) < 2 ^ 53 ∧ (0 : ℤ) ≤ 44 ∧ (44 : ℤ) < 2 ^ 53) ∧
    ∀ pt ∈ build_sparkline_points [1, 2, 3] 360 44,
      0 ≤ pt.1 ∧ pt.1 ≤ 360 ∧ 0 ≤ pt.2 ∧ pt.2 ≤ 44 :=
  ⟨⟨by decide, by decide, by decide, by decide, by decide, by decide⟩,
    (sparkline_geometry [1, 2, 3] 360 44 (by decide) (by decide) (by decide)
      (by decide) (by decide) (by decide)).2.1⟩
